import Mathlib

/-!
Shallow embedding of `src/backend/main.py` (graph validator of the
pipeline service) and verification of its specification.

Python dictionaries keyed by node-identifier strings are modelled as
insertion-ordered association lists (`Dict`): `dictSet` updates the
first matching key in place and appends a fresh key at the end, and
`dictGet` returns the value of the first matching key, exactly as a
Python `dict` behaves.  Python's arbitrary-precision integers are
modelled as `Int`.  The HTTP layer is modelled by `Except HTTPError`.
-/

set_option maxHeartbeats 1000000

namespace Pipeline

/-- `class Node(BaseModel)` of `main.py`.  The validator never inspects
`position` and `data`, so they are carried at arbitrary types `π` and `δ`
(the Python values are a float map and an arbitrary JSON object). -/
structure Node (π δ : Type) where
  id : String
  type : String
  position : π
  data : δ

/-- `class Edge(BaseModel)` of `main.py`; the optional handles
(`sourceHandle`/`targetHandle`, default `None`) become `Option String`. -/
structure Edge where
  id : String
  source : String
  target : String
  sourceHandle : Option String := none
  targetHandle : Option String := none
deriving DecidableEq

/-- `fastapi.HTTPException` as raised by `parse_pipeline`. -/
structure HTTPError where
  status_code : Nat
  detail : String
deriving DecidableEq

/-- The success payload returned by `parse_pipeline`. -/
structure ParseResult (π δ : Type) where
  status : String
  nodes_count : Nat
  edges_count : Nat
  is_dag : Bool
  nodes : List (Node π δ)
  edges : List Edge

/-- A Python `dict` with string keys: an insertion-ordered association list. -/
abbrev Dict (α : Type) : Type := List (String × α)

/-- Python `d[k]` / `d.get(k)`: value at the first occurrence of the key. -/
def dictGet {α : Type} : Dict α → String → Option α
  | [], _ => none
  | (k, v) :: rest, key => if k = key then some v else dictGet rest key

/-- Python `d[k] = v`: update the first occurrence of the key in place,
or append the new key at the end (insertion order). -/
def dictSet {α : Type} : Dict α → String → α → Dict α
  | [], key, val => [(key, val)]
  | (k, v) :: rest, key, val =>
      if k = key then (k, val) :: rest else (k, v) :: dictSet rest key val

/-- One iteration of the node-initialisation loop of `is_dag`
(`graph[node.id] = []` and `in_degree[node.id] = 0`). -/
def initStep (st : Dict (List String) × Dict Int) (nid : String) :
    Dict (List String) × Dict Int :=
  (dictSet st.1 nid [], dictSet st.2 nid 0)

/-- One iteration of the edge loop of `is_dag`: when both endpoints are
keys of `graph`, append the target to the source's adjacency list and
increment the target's in-degree (`in_degree.get(edge.target, 0) + 1`). -/
def buildStep (st : Dict (List String) × Dict Int) (p : String × String) :
    Dict (List String) × Dict Int :=
  if ((dictGet st.1 p.1).isSome && (dictGet st.1 p.2).isSome) then
    (dictSet st.1 p.1 ((dictGet st.1 p.1).getD [] ++ [p.2]),
     dictSet st.2 p.2 ((dictGet st.2 p.2).getD 0 + 1))
  else st

/-- One iteration of the neighbour loop inside the worklist loop of
`is_dag`: if the neighbour is a key of `in_degree`, decrement its
in-degree and, when the new in-degree is exactly zero, append the
neighbour to the back of the queue. -/
def stepNb (st : Dict Int × List String) (nb : String) : Dict Int × List String :=
  match dictGet st.1 nb with
  | none => st
  | some v =>
      if v - 1 == 0 then (dictSet st.1 nb (v - 1), st.2 ++ [nb])
      else (dictSet st.1 nb (v - 1), st.2)

/-- Sum of the (clamped-to-`Nat`) in-degree values of a dictionary;
part of the termination measure of the worklist loop. -/
def degSum (d : Dict Int) : Nat := (d.map (fun p => p.2.toNat)).sum

/-- Termination measure of the worklist loop: queue length plus total
remaining positive in-degree. -/
def kahnMeasure (d : Dict Int) (queue : List String) : Nat :=
  degSum d + queue.length

theorem degSum_nil : degSum [] = 0 := rfl

theorem degSum_cons (k : String) (v : Int) (d : Dict Int) :
    degSum ((k, v) :: d) = v.toNat + degSum d := by
  simp [degSum]

theorem degSum_dictSet (d : Dict Int) (k : String) (v w : Int)
    (h : dictGet d k = some v) :
    degSum (dictSet d k w) + v.toNat = degSum d + w.toNat := by
  induction d with
  | nil => simp [dictGet] at h
  | cons a rest ih =>
      obtain ⟨ak, av⟩ := a
      by_cases hk : ak = k
      · subst hk
        simp [dictGet] at h
        subst h
        simp [dictSet, degSum_cons]
        omega
      · simp [dictGet, hk] at h
        simp [dictSet, hk, degSum_cons]
        have := ih h
        omega

theorem stepNb_measure (st : Dict Int × List String) (nb : String) :
    kahnMeasure (stepNb st nb).1 (stepNb st nb).2 ≤ kahnMeasure st.1 st.2 := by
  obtain ⟨d, q⟩ := st
  unfold stepNb
  cases hg : dictGet d nb with
  | none => simp
  | some v =>
      have hsum := degSum_dictSet d nb v (v - 1) hg
      by_cases hz : v - 1 == 0
      · have hv : v = 1 := by
          have := beq_iff_eq.mp hz
          omega
        subst hv
        simp [hz, kahnMeasure]
        simp at hsum
        omega
      · simp [hz, kahnMeasure]
        have : (v - 1).toNat ≤ v.toNat := by omega
        omega

theorem foldl_stepNb_measure (ns : List String) :
    ∀ st : Dict Int × List String,
      kahnMeasure (ns.foldl stepNb st).1 (ns.foldl stepNb st).2 ≤
        kahnMeasure st.1 st.2 := by
  induction ns with
  | nil => intro st; simp
  | cons n rest ih =>
      intro st
      calc kahnMeasure ((rest.foldl stepNb (stepNb st n)).1)
              ((rest.foldl stepNb (stepNb st n)).2)
          ≤ kahnMeasure (stepNb st n).1 (stepNb st n).2 := ih (stepNb st n)
        _ ≤ kahnMeasure st.1 st.2 := stepNb_measure st n

/-- The `while queue:` worklist loop of `is_dag`: pop the front of the
queue, count it as visited, run the neighbour loop
(`for neighbor in graph.get(node_id, [])`), and continue. -/
def kahnLoop (graph : Dict (List String)) (inDeg : Dict Int)
    (queue : List String) (visited : Nat) : Nat :=
  match queue with
  | [] => visited
  | nodeId :: rest =>
      kahnLoop graph
        (((dictGet graph nodeId).getD []).foldl stepNb (inDeg, rest)).1
        (((dictGet graph nodeId).getD []).foldl stepNb (inDeg, rest)).2
        (visited + 1)
termination_by kahnMeasure inDeg queue
decreasing_by
  have h := foldl_stepNb_measure ((dictGet graph nodeId).getD []) (inDeg, rest)
  simp only [kahnMeasure] at h ⊢
  simp
  omega

/-- The queue-seeding comprehension of `is_dag`
(`[node_id for node_id, degree in in_degree.items() if degree == 0]`). -/
def seedQueue (d : Dict Int) : List String :=
  (d.filter (fun q => q.2 == 0)).map Prod.fst

/-- The whole of `is_dag` after the two short-circuits, expressed on the
projected data (node identifiers and edge endpoint pairs): build the two
dictionaries, seed the queue, run the worklist loop from zero visited. -/
def kahnCount (ids : List String) (pairs : List (String × String)) : Nat :=
  let st0 := ids.foldl initStep ([], [])
  let st1 := pairs.foldl buildStep st0
  kahnLoop st1.1 st1.2 (seedQueue st1.2) 0

/-- `is_dag(nodes, edges)` of `main.py`: short-circuit on an empty node
or edge list, otherwise run Kahn's algorithm and compare the visited
count with `len(nodes)`. -/
def is_dag {π δ : Type} (nodes : List (Node π δ)) (edges : List Edge) : Bool :=
  if nodes.length = 0 then true
  else if edges.length = 0 then true
  else
    let st0 := nodes.foldl (fun st node => initStep st node.id) ([], [])
    let st1 := edges.foldl (fun st edge => buildStep st (edge.source, edge.target)) st0
    kahnLoop st1.1 st1.2 (seedQueue st1.2) 0 == nodes.length

/-- The node identifiers of a request, in declared order
(`node.id for node in request.nodes`). -/
def nodeIds {π δ : Type} (nodes : List (Node π δ)) : List String :=
  nodes.map Node.id

/-- The endpoint pairs of the edges of a request, in declared order. -/
def edgePairs (edges : List Edge) : List (String × String) :=
  edges.map (fun e => (e.source, e.target))

/-- The reference-check loop of `parse_pipeline`: for each edge in
declared order, fail with a 400 error naming the missing source (checked
first) or the missing target, otherwise continue. -/
def checkRefs (ids : List String) : List Edge → Option HTTPError
  | [] => none
  | e :: rest =>
      if e.source ∉ ids then
        some ⟨400, "Edge references non-existent source node: " ++ e.source⟩
      else if e.target ∉ ids then
        some ⟨400, "Edge references non-existent target node: " ++ e.target⟩
      else checkRefs ids rest

/-- `parse_pipeline(request)` of `main.py`: run the reference check over
`node_ids = {node.id for node in request.nodes}`; on failure surface the
`HTTPException`, on success classify with `is_dag` and echo the input
back.  The body is pure, so the generic `except Exception` 500 branch is
unreachable and has no counterpart here. -/
def parse_pipeline {π δ : Type} (nodes : List (Node π δ)) (edges : List Edge) :
    Except HTTPError (ParseResult π δ) :=
  match checkRefs (nodeIds nodes) edges with
  | some err => Except.error err
  | none =>
      Except.ok
        { status := "parsed"
          nodes_count := nodes.length
          edges_count := edges.length
          is_dag := is_dag nodes edges
          nodes := nodes
          edges := edges }

/-! ### Proof-side definitions

The functions below are not part of the program: they give closed forms
for the dictionaries the program builds and name the graph-theoretic
notions the specification speaks about. -/

/-- Insert a key at the back unless it is already present; folding this
over the node identifiers yields the key list of the Python dictionaries
(first occurrence wins, insertion order preserved). -/
def addKey (ks : List String) (x : String) : List String :=
  if x ∈ ks then ks else ks ++ [x]

/-- The distinct node identifiers in first-occurrence order: the common
key list of `graph` and `in_degree` after the initialisation loop. -/
def keyList (ids : List String) : List String :=
  ids.foldl addKey []

/-- The edges the edge loop of `is_dag` actually processes: those whose
two endpoints are keys of the dictionaries. -/
def effPairs (K : List String) (pairs : List (String × String)) :
    List (String × String) :=
  pairs.filter (fun p => decide (p.1 ∈ K) && decide (p.2 ∈ K))

/-- Successor list of `u`: targets of the pairs with source `u`, in
order; the closed form of `graph[u]`. -/
def adjOf (E : List (String × String)) (u : String) : List String :=
  (E.filter (fun p => p.1 == u)).map Prod.snd

/-- Number of pairs with target `v`: the closed form of the initial
`in_degree[v]`. -/
def indegOf (E : List (String × String)) (v : String) : Nat :=
  (E.filter (fun p => p.2 == v)).length

/-- Number of pairs with target `v` whose source has already been
popped from the worklist (is in `done`). -/
def inFrom (E : List (String × String)) (done : List String) (v : String) : Nat :=
  (E.filter (fun p => p.2 == v && decide (p.1 ∈ done))).length

/-- Current in-degree of `v` when the popped nodes are `done`: the
closed form of the evolving `in_degree[v]`. -/
def degF (E : List (String × String)) (done : List String) (v : String) : Int :=
  (indegOf E v : Int) - (inFrom E done v : Int)

/-- A self-sustaining vertex list: every member is the target of a pair
whose source is also a member.  The worklist loop never visits such
vertices; a graph is acyclic exactly when only the empty list has this
property. -/
def PSet (E : List (String × String)) (C : List String) : Prop :=
  ∀ v ∈ C, ∃ p ∈ E, p.2 = v ∧ p.1 ∈ C

/-- Closed form of the vertices the neighbour loop appends to the queue
while processing successor list `ns` from in-degree assignment `D`, in
append order. -/
def newqF : List String → (String → Int) → List String
  | [], _ => []
  | n :: rest, D =>
      (if D n - 1 = 0 then [n] else []) ++
        newqF rest (fun v => if v = n then D v - 1 else D v)

/-- Directed-edge relation of a request: some submitted edge goes from
`u` to `v`. -/
def hasEdge (edges : List Edge) (u v : String) : Prop :=
  ∃ e ∈ edges, e.source = u ∧ e.target = v

/-- Directed-edge relation of a list of endpoint pairs. -/
def pairRel (E : List (String × String)) (u v : String) : Prop :=
  ∃ p ∈ E, p.1 = u ∧ p.2 = v

/-! ### Lemmas about the reference check -/

theorem checkRefs_eq_none (ids : List String) (edges : List Edge)
    (h : ∀ e ∈ edges, e.source ∈ ids ∧ e.target ∈ ids) :
    checkRefs ids edges = none := by
  induction edges with
  | nil => rfl
  | cons e rest ih =>
      have he := h e (by simp)
      simp only [checkRefs, he.1, he.2, not_true_eq_false, if_false]
      exact ih (fun e2 h2 => h e2 (by simp [h2]))

theorem parse_pipeline_ok {π δ : Type} (nodes : List (Node π δ)) (edges : List Edge)
    (h : ∀ e ∈ edges, e.source ∈ nodeIds nodes ∧ e.target ∈ nodeIds nodes) :
    parse_pipeline nodes edges =
      Except.ok ⟨"parsed", nodes.length, edges.length, is_dag nodes edges, nodes, edges⟩ := by
  unfold parse_pipeline
  rw [checkRefs_eq_none _ _ h]

theorem checkRefs_append (ids : List String) (pre rest : List Edge)
    (h : ∀ e ∈ pre, e.source ∈ ids ∧ e.target ∈ ids) :
    checkRefs ids (pre ++ rest) = checkRefs ids rest := by
  induction pre with
  | nil => rfl
  | cons e pre2 ih =>
      have he := h e (by simp)
      simp only [List.cons_append, checkRefs, he.1, he.2, not_true_eq_false, if_false]
      exact ih (fun e2 h2 => h e2 (by simp [h2]))

theorem checkRefs_some_of_bad (ids : List String) (edges : List Edge)
    (h : ∃ e ∈ edges, e.source ∉ ids ∨ e.target ∉ ids) :
    ∃ err, checkRefs ids edges = some err ∧ err.status_code = 400 ∧
      ∃ e ∈ edges,
        (e.source ∉ ids ∧
          err.detail = "Edge references non-existent source node: " ++ e.source) ∨
        (e.target ∉ ids ∧
          err.detail = "Edge references non-existent target node: " ++ e.target) := by
  induction edges with
  | nil => simp at h
  | cons e rest ih =>
      by_cases hs : e.source ∈ ids
      · by_cases ht : e.target ∈ ids
        · obtain ⟨e2, he2, hbad⟩ := h
          have he2r : e2 ∈ rest := by
            rcases List.mem_cons.mp he2 with h1 | h1
            · subst h1
              rcases hbad with h2 | h2
              · exact absurd hs h2
              · exact absurd ht h2
            · exact h1
          obtain ⟨err, herr, hcode, e3, he3, hdet⟩ := ih ⟨e2, he2r, hbad⟩
          refine ⟨err, ?_, hcode, e3, by simp [he3], hdet⟩
          simp only [checkRefs, hs, ht, not_true_eq_false, if_false]
          exact herr
        · refine ⟨⟨400, "Edge references non-existent target node: " ++ e.target⟩, ?_,
            rfl, e, by simp, Or.inr ⟨ht, rfl⟩⟩
          simp [checkRefs, hs, ht]
      · refine ⟨⟨400, "Edge references non-existent source node: " ++ e.source⟩, ?_,
          rfl, e, by simp, Or.inl ⟨hs, rfl⟩⟩
        simp [checkRefs, hs]

/-! ### Claims about the reference check and the result shape -/

/-- Claim C2: `parse_pipeline` fails with an invalid-reference client
error (status 400, message naming the offending identifier) if and only
if some edge endpoint is missing from the submitted node identifiers;
when every endpoint exists it returns a classification result. -/
theorem claim_C2_invalid_reference {π δ : Type} (nodes : List (Node π δ))
    (edges : List Edge) :
    ((∃ e ∈ edges, e.source ∉ nodeIds nodes ∨ e.target ∉ nodeIds nodes) →
      ∃ err, parse_pipeline nodes edges = Except.error err ∧
        err.status_code = 400 ∧
        ∃ e ∈ edges,
          (e.source ∉ nodeIds nodes ∧
            err.detail = "Edge references non-existent source node: " ++ e.source) ∨
          (e.target ∉ nodeIds nodes ∧
            err.detail = "Edge references non-existent target node: " ++ e.target)) ∧
    ((∀ e ∈ edges, e.source ∈ nodeIds nodes ∧ e.target ∈ nodeIds nodes) →
      ∃ r, parse_pipeline nodes edges = Except.ok r) := by
  constructor
  · intro h
    obtain ⟨err, herr, hcode, hdet⟩ := checkRefs_some_of_bad _ _ h
    refine ⟨err, ?_, hcode, hdet⟩
    unfold parse_pipeline
    rw [herr]
  · intro h
    exact ⟨_, parse_pipeline_ok nodes edges h⟩

/-- Witness for C2 at a concrete input: one request with a ghost source
(error case) and one fully valid request (success case). -/
theorem claim_C2_witness :
    (∃ err,
        parse_pipeline [({ id := "A", type := "t", position := 0, data := 0 } :
            Node Nat Nat)]
          [{ id := "e1", source := "ghost", target := "A" }] = Except.error err ∧
        err.status_code = 400 ∧
        ∃ e ∈ [({ id := "e1", source := "ghost", target := "A" } : Edge)],
          (e.source ∉ nodeIds [({ id := "A", type := "t", position := 0, data := 0 } :
              Node Nat Nat)] ∧
            err.detail = "Edge references non-existent source node: " ++ e.source) ∨
          (e.target ∉ nodeIds [({ id := "A", type := "t", position := 0, data := 0 } :
              Node Nat Nat)] ∧
            err.detail = "Edge references non-existent target node: " ++ e.target)) := by
  exact
    (claim_C2_invalid_reference
        [({ id := "A", type := "t", position := 0, data := 0 } : Node Nat Nat)]
        [{ id := "e1", source := "ghost", target := "A" }]).1
      ⟨{ id := "e1", source := "ghost", target := "A" }, by simp, by left; decide⟩

/-- Claim C3: whenever the reference check passes, the result is `ok`
with status `"parsed"`, the two input lengths as counts, the `is_dag`
verdict, and the input echoed back unchanged. -/
theorem claim_C3_result_shape {π δ : Type} (nodes : List (Node π δ)) (edges : List Edge)
    (h : ∀ e ∈ edges, e.source ∈ nodeIds nodes ∧ e.target ∈ nodeIds nodes) :
    parse_pipeline nodes edges =
      Except.ok ⟨"parsed", nodes.length, edges.length, is_dag nodes edges, nodes, edges⟩ :=
  parse_pipeline_ok nodes edges h

/-- Witness for C3 at a concrete three-node chain. -/
theorem claim_C3_witness :
    (∀ e ∈ [({ id := "e1", source := "A", target := "B" } : Edge),
            { id := "e2", source := "B", target := "C" }],
        e.source ∈ nodeIds
            [({ id := "A", type := "t", position := 0, data := 0 } : Node Nat Nat),
             { id := "B", type := "t", position := 0, data := 0 },
             { id := "C", type := "t", position := 0, data := 0 }] ∧
        e.target ∈ nodeIds
            [({ id := "A", type := "t", position := 0, data := 0 } : Node Nat Nat),
             { id := "B", type := "t", position := 0, data := 0 },
             { id := "C", type := "t", position := 0, data := 0 }]) ∧
    parse_pipeline
        [({ id := "A", type := "t", position := 0, data := 0 } : Node Nat Nat),
         { id := "B", type := "t", position := 0, data := 0 },
         { id := "C", type := "t", position := 0, data := 0 }]
        [{ id := "e1", source := "A", target := "B" },
         { id := "e2", source := "B", target := "C" }] =
      Except.ok
        ⟨"parsed", 3, 2,
          is_dag
            [({ id := "A", type := "t", position := 0, data := 0 } : Node Nat Nat),
             { id := "B", type := "t", position := 0, data := 0 },
             { id := "C", type := "t", position := 0, data := 0 }]
            [{ id := "e1", source := "A", target := "B" },
             { id := "e2", source := "B", target := "C" }],
          [({ id := "A", type := "t", position := 0, data := 0 } : Node Nat Nat),
           { id := "B", type := "t", position := 0, data := 0 },
           { id := "C", type := "t", position := 0, data := 0 }],
          [{ id := "e1", source := "A", target := "B" },
           { id := "e2", source := "B", target := "C" }]⟩ :=
  ⟨by decide, claim_C3_result_shape _ _ (by decide)⟩

/-- Claim C6: the reported invalid reference is the one of the first
offending edge in declared order, and for that edge a missing source is
reported in preference to a missing target. -/
theorem claim_C6_fail_fast {π δ : Type} (nodes : List (Node π δ))
    (pre post : List Edge) (e : Edge)
    (hpre : ∀ e2 ∈ pre, e2.source ∈ nodeIds nodes ∧ e2.target ∈ nodeIds nodes)
    (hbad : e.source ∉ nodeIds nodes ∨ e.target ∉ nodeIds nodes) :
    parse_pipeline nodes (pre ++ e :: post) =
      Except.error
        ⟨400,
          if e.source ∉ nodeIds nodes then
            "Edge references non-existent source node: " ++ e.source
          else "Edge references non-existent target node: " ++ e.target⟩ := by
  unfold parse_pipeline
  rw [checkRefs_append _ _ _ hpre]
  by_cases hs : e.source ∈ nodeIds nodes
  · have ht : e.target ∉ nodeIds nodes := by
      rcases hbad with h1 | h1
      · exact absurd hs h1
      · exact h1
    simp [checkRefs, hs, ht]
  · simp [checkRefs, hs]

/-- Witness for C6: one valid edge precedes an edge whose source and
target are both missing; the source is the one reported. -/
theorem claim_C6_witness :
    (∀ e2 ∈ [({ id := "e1", source := "A", target := "B" } : Edge)],
        e2.source ∈ nodeIds
            [({ id := "A", type := "t", position := 0, data := 0 } : Node Nat Nat),
             { id := "B", type := "t", position := 0, data := 0 }] ∧
        e2.target ∈ nodeIds
            [({ id := "A", type := "t", position := 0, data := 0 } : Node Nat Nat),
             { id := "B", type := "t", position := 0, data := 0 }]) ∧
    parse_pipeline
        [({ id := "A", type := "t", position := 0, data := 0 } : Node Nat Nat),
         { id := "B", type := "t", position := 0, data := 0 }]
        ([{ id := "e1", source := "A", target := "B" }] ++
          { id := "e2", source := "ghost", target := "spook" } ::
            [{ id := "e3", source := "phantom", target := "A" }]) =
      Except.error
        ⟨400,
          if ({ id := "e2", source := "ghost", target := "spook" } : Edge).source ∉
              nodeIds
                [({ id := "A", type := "t", position := 0, data := 0 } : Node Nat Nat),
                 { id := "B", type := "t", position := 0, data := 0 }] then
            "Edge references non-existent source node: " ++
              ({ id := "e2", source := "ghost", target := "spook" } : Edge).source
          else
            "Edge references non-existent target node: " ++
              ({ id := "e2", source := "ghost", target := "spook" } : Edge).target⟩ :=
  ⟨by decide,
    claim_C6_fail_fast _ _ _ _ (by decide) (by left; decide)⟩

/-- Claim C5: an empty node list yields `is_dag = true` for every edge
list, and an empty edge list yields `is_dag = true` for every node list;
both are the short-circuits before the worklist algorithm. -/
theorem claim_C5_trivial_graphs (π δ : Type) :
    (∀ edges : List Edge, is_dag ([] : List (Node π δ)) edges = true) ∧
    (∀ nodes : List (Node π δ), is_dag nodes ([] : List Edge) = true) := by
  constructor
  · intro edges
    simp [is_dag]
  · intro nodes
    by_cases h : nodes.length = 0 <;> simp [is_dag, h]

/-- Claim C7: `parse_pipeline` is a pure function of its two inputs:
identical node and edge lists give identical outputs. -/
theorem claim_C7_deterministic {π δ : Type} (nodes1 nodes2 : List (Node π δ))
    (edges1 edges2 : List Edge) (h1 : nodes1 = nodes2) (h2 : edges1 = edges2) :
    parse_pipeline nodes1 edges1 = parse_pipeline nodes2 edges2 := by
  rw [h1, h2]

/-- Witness for C7 at a concrete request. -/
theorem claim_C7_witness :
    ([({ id := "A", type := "t", position := 0, data := 0 } : Node Nat Nat)] =
      [({ id := "A", type := "t", position := 0, data := 0 } : Node Nat Nat)]) ∧
    ([({ id := "e1", source := "A", target := "A" } : Edge)] =
      [({ id := "e1", source := "A", target := "A" } : Edge)]) ∧
    parse_pipeline [({ id := "A", type := "t", position := 0, data := 0 } : Node Nat Nat)]
        [{ id := "e1", source := "A", target := "A" }] =
      parse_pipeline [({ id := "A", type := "t", position := 0, data := 0 } : Node Nat Nat)]
        [{ id := "e1", source := "A", target := "A" }] :=
  ⟨rfl, rfl, claim_C7_deterministic _ _ _ _ rfl rfl⟩

/-! ### `is_dag` factors through the identifier projections -/

theorem is_dag_eq_core {π δ : Type} (nodes : List (Node π δ)) (edges : List Edge) :
    is_dag nodes edges =
      if nodes.length = 0 then true
      else if edges.length = 0 then true
      else kahnCount (nodeIds nodes) (edgePairs edges) == nodes.length := by
  unfold is_dag kahnCount nodeIds edgePairs
  simp only [List.foldl_map]

theorem checkRefs_congr_pairs (ids : List String) (edges1 edges2 : List Edge)
    (h : edgePairs edges1 = edgePairs edges2) :
    checkRefs ids edges1 = checkRefs ids edges2 := by
  induction edges1 generalizing edges2 with
  | nil =>
      cases edges2 with
      | nil => rfl
      | cons e rest => simp [edgePairs] at h
  | cons e1 rest1 ih =>
      cases edges2 with
      | nil => simp [edgePairs] at h
      | cons e2 rest2 =>
          simp only [edgePairs, List.map_cons, List.cons.injEq, Prod.mk.injEq] at h
          obtain ⟨⟨hsrc, htgt⟩, hrest⟩ := h
          simp only [checkRefs, hsrc, htgt]
          rw [ih rest2 hrest]

/-- Claim C9: the `is_dag` verdict and the error-or-success outcome of
`parse_pipeline` depend only on the node identifiers and the edges'
source/target identifiers: requests agreeing on those (but differing in
node types, positions, data bags, edge ids or handles — even in the
types of the position and data payloads) behave identically. -/
theorem claim_C9_only_identifiers {π1 δ1 π2 δ2 : Type}
    (nodes1 : List (Node π1 δ1)) (nodes2 : List (Node π2 δ2))
    (edges1 edges2 : List Edge)
    (hn : nodeIds nodes1 = nodeIds nodes2)
    (he : edgePairs edges1 = edgePairs edges2) :
    is_dag nodes1 edges1 = is_dag nodes2 edges2 ∧
      (parse_pipeline nodes1 edges1).isOk = (parse_pipeline nodes2 edges2).isOk := by
  have hnl : nodes1.length = nodes2.length := by
    have := congrArg List.length hn
    simpa [nodeIds] using this
  have hel : edges1.length = edges2.length := by
    have := congrArg List.length he
    simpa [edgePairs] using this
  have hdag : is_dag nodes1 edges1 = is_dag nodes2 edges2 := by
    rw [is_dag_eq_core, is_dag_eq_core, hn, he, hnl, hel]
  refine ⟨hdag, ?_⟩
  unfold parse_pipeline
  rw [checkRefs_congr_pairs (nodeIds nodes1) edges1 edges2 he, hn]
  cases checkRefs (nodeIds nodes2) edges2 with
  | none => rfl
  | some err => rfl

/-- Witness for C9: two requests with the same identifiers but different
payload types, node types, positions, data, edge ids and handles. -/
theorem claim_C9_witness :
    (nodeIds [({ id := "A", type := "t1", position := 0, data := 0 } : Node Nat Nat),
              { id := "B", type := "t1", position := 1, data := 1 }] =
      nodeIds [({ id := "A", type := "t2", position := true, data := "x" } : Node Bool String),
               { id := "B", type := "t3", position := false, data := "y" }]) ∧
    (edgePairs [({ id := "e1", source := "A", target := "B" } : Edge)] =
      edgePairs [({ id := "zz", source := "A", target := "B",
                    sourceHandle := some "h1", targetHandle := some "h2" } : Edge)]) ∧
    (is_dag [({ id := "A", type := "t1", position := 0, data := 0 } : Node Nat Nat),
             { id := "B", type := "t1", position := 1, data := 1 }]
        [{ id := "e1", source := "A", target := "B" }] =
      is_dag [({ id := "A", type := "t2", position := true, data := "x" } : Node Bool String),
              { id := "B", type := "t3", position := false, data := "y" }]
        [{ id := "zz", source := "A", target := "B",
           sourceHandle := some "h1", targetHandle := some "h2" }] ∧
      (parse_pipeline
            [({ id := "A", type := "t1", position := 0, data := 0 } : Node Nat Nat),
             { id := "B", type := "t1", position := 1, data := 1 }]
            [{ id := "e1", source := "A", target := "B" }]).isOk =
        (parse_pipeline
            [({ id := "A", type := "t2", position := true, data := "x" } : Node Bool String),
             { id := "B", type := "t3", position := false, data := "y" }]
            [{ id := "zz", source := "A", target := "B",
               sourceHandle := some "h1", targetHandle := some "h2" }]).isOk) :=
  ⟨rfl, rfl, claim_C9_only_identifiers _ _ _ _ rfl rfl⟩

/-! ### Map-form dictionaries

All dictionaries the program builds have the shape
`K.map (fun v => (v, f v))` for the fixed key list `K` and an evolving
value function `f`; the lemmas below push `dictGet`/`dictSet` through
that shape. -/

theorem dictGet_mapForm {α : Type} (K : List String) (f : String → α) (u : String) :
    dictGet (K.map (fun v => (v, f v))) u = if u ∈ K then some (f u) else none := by
  induction K with
  | nil => simp [dictGet]
  | cons k rest ih =>
      by_cases hk : k = u
      · subst hk
        simp [dictGet]
      · simp [dictGet, hk, ih, Ne.symm hk]

theorem dictGet_mapForm_mem {α : Type} {K : List String} (f : String → α) {u : String}
    (hu : u ∈ K) : dictGet (K.map (fun v => (v, f v))) u = some (f u) := by
  rw [dictGet_mapForm, if_pos hu]

theorem dictSet_mapForm {α : Type} {K : List String} (hK : K.Nodup)
    (f : String → α) {k : String} (hk : k ∈ K) (w : α) :
    dictSet (K.map (fun v => (v, f v))) k w =
      K.map (fun v => (v, if v = k then w else f v)) := by
  induction K with
  | nil => simp at hk
  | cons a rest ih =>
      simp only [List.map_cons, dictSet]
      by_cases hak : a = k
      · subst hak
        simp only [ite_true, eq_self_iff_true, if_pos]
        congr 1
        refine (List.map_congr_left ?_).symm
        intro v hv
        have hvk : v ≠ a := fun h => (List.nodup_cons.mp hK).1 (h ▸ hv)
        simp [hvk]
      · have hk2 : k ∈ rest := by
          rcases List.mem_cons.mp hk with h1 | h1
          · exact absurd h1.symm hak
          · exact h1
        simp only [if_neg hak]
        rw [ih (List.nodup_cons.mp hK).2 hk2]

theorem dictSet_mapConst_mem {α : Type} (K : List String) (c : α) {k : String}
    (hk : k ∈ K) : dictSet (K.map (fun v => (v, c))) k c = K.map (fun v => (v, c)) := by
  induction K with
  | nil => simp at hk
  | cons a rest ih =>
      by_cases hak : a = k
      · simp [dictSet, hak]
      · rcases List.mem_cons.mp hk with h1 | h1
        · exact absurd h1.symm hak
        · simp [dictSet, hak, ih h1]

theorem dictSet_mapConst_not_mem {α : Type} (K : List String) (c : α) {k : String}
    (hk : k ∉ K) :
    dictSet (K.map (fun v => (v, c))) k c = K.map (fun v => (v, c)) ++ [(k, c)] := by
  induction K with
  | nil => simp [dictSet]
  | cons a rest ih =>
      have hak : a ≠ k := fun h => hk (by simp [h])
      have hk2 : k ∉ rest := fun h => hk (by simp [h])
      simp [dictSet, hak, ih hk2]

/-! ### The key list -/

theorem mem_foldl_addKey (ids : List String) :
    ∀ (ks : List String) (x : String),
      x ∈ ids.foldl addKey ks ↔ x ∈ ks ∨ x ∈ ids := by
  induction ids with
  | nil => simp
  | cons i rest ih =>
      intro ks x
      rw [List.foldl_cons, ih]
      unfold addKey
      by_cases hi : i ∈ ks
      · simp only [if_pos hi]
        constructor
        · rintro (h | h)
          · exact Or.inl h
          · exact Or.inr (by simp [h])
        · rintro (h | h)
          · exact Or.inl h
          · rcases List.mem_cons.mp h with h1 | h1
            · exact Or.inl (h1 ▸ hi)
            · exact Or.inr h1
      · simp only [if_neg hi, List.mem_append, List.mem_singleton]
        constructor
        · rintro ((h | h) | h)
          · exact Or.inl h
          · exact Or.inr (by simp [h])
          · exact Or.inr (by simp [h])
        · rintro (h | h)
          · exact Or.inl (Or.inl h)
          · rcases List.mem_cons.mp h with h1 | h1
            · exact Or.inl (Or.inr (by simp [h1]))
            · exact Or.inr h1

theorem nodup_foldl_addKey (ids : List String) :
    ∀ ks : List String, ks.Nodup → (ids.foldl addKey ks).Nodup := by
  induction ids with
  | nil => intro ks h; exact h
  | cons i rest ih =>
      intro ks hks
      rw [List.foldl_cons]
      apply ih
      unfold addKey
      by_cases hi : i ∈ ks
      · simpa [hi] using hks
      · simp [hi, List.nodup_append, hks]

theorem mem_keyList (ids : List String) (x : String) :
    x ∈ keyList ids ↔ x ∈ ids := by
  unfold keyList
  rw [mem_foldl_addKey]
  simp

theorem keyList_nodup (ids : List String) : (keyList ids).Nodup :=
  nodup_foldl_addKey ids [] List.nodup_nil

theorem foldl_addKey_of_nodup (ids : List String) :
    ∀ ks : List String, ids.Nodup → (∀ x ∈ ids, x ∉ ks) →
      ids.foldl addKey ks = ks ++ ids := by
  induction ids with
  | nil => intro ks _ _; simp
  | cons i rest ih =>
      intro ks hnd hdisj
      rw [List.foldl_cons]
      have hi : i ∉ ks := hdisj i (by simp)
      have hstep : addKey ks i = ks ++ [i] := by rw [addKey, if_neg hi]
      rw [hstep]
      rw [ih (ks ++ [i]) (List.nodup_cons.mp hnd).2]
      · simp
      · intro x hx
        simp only [List.mem_append, List.mem_singleton]
        rintro (h | h)
        · exact hdisj x (by simp [hx]) h
        · exact (List.nodup_cons.mp hnd).1 (h ▸ hx)

theorem keyList_of_nodup {ids : List String} (h : ids.Nodup) : keyList ids = ids := by
  unfold keyList
  rw [foldl_addKey_of_nodup ids [] h (by simp)]
  simp

theorem keyList_toFinset (ids : List String) :
    (keyList ids).toFinset = ids.toFinset := by
  ext x
  simp [List.mem_toFinset, mem_keyList]

theorem keyList_length_lt {ids : List String} (h : ¬ ids.Nodup) :
    (keyList ids).length < ids.length := by
  have h1 : (keyList ids).length = ids.toFinset.card := by
    rw [← keyList_toFinset, List.toFinset_card_of_nodup (keyList_nodup ids)]
  have h2 : ids.toFinset.card = ids.dedup.length := List.card_toFinset ids
  have h3 : ids.dedup.length ≤ ids.length := (List.dedup_sublist ids).length_le
  have h4 : ids.dedup.length ≠ ids.length := by
    intro heq
    exact h (List.dedup_eq_self.mp ((List.dedup_sublist ids).eq_of_length heq))
  omega

theorem keyList_length_le (ids : List String) :
    (keyList ids).length ≤ ids.length := by
  by_cases h : ids.Nodup
  · rw [keyList_of_nodup h]
  · exact Nat.le_of_lt (keyList_length_lt h)

/-! ### Characterising the two build loops -/

theorem initFold_go (ids : List String) :
    ∀ ks : List String,
      ids.foldl initStep
          (ks.map (fun k => (k, ([] : List String))), ks.map (fun k => (k, (0 : Int)))) =
        ((ids.foldl addKey ks).map (fun k => (k, ([] : List String))),
         (ids.foldl addKey ks).map (fun k => (k, (0 : Int)))) := by
  induction ids with
  | nil => intro ks; rfl
  | cons i rest ih =>
      intro ks
      rw [List.foldl_cons, List.foldl_cons]
      by_cases hi : i ∈ ks
      · have : initStep (ks.map (fun k => (k, ([] : List String))),
            ks.map (fun k => (k, (0 : Int)))) i =
            (ks.map (fun k => (k, ([] : List String))), ks.map (fun k => (k, (0 : Int)))) := by
          unfold initStep
          rw [dictSet_mapConst_mem _ _ hi, dictSet_mapConst_mem _ _ hi]
        rw [this, ih, addKey, if_pos hi]
      · have : initStep (ks.map (fun k => (k, ([] : List String))),
            ks.map (fun k => (k, (0 : Int)))) i =
            ((ks ++ [i]).map (fun k => (k, ([] : List String))),
             (ks ++ [i]).map (fun k => (k, (0 : Int)))) := by
          unfold initStep
          rw [dictSet_mapConst_not_mem _ _ hi, dictSet_mapConst_not_mem _ _ hi]
          simp
        rw [this, ih, addKey, if_neg hi]

theorem initFold_eq (ids : List String) :
    ids.foldl initStep ([], []) =
      ((keyList ids).map (fun k => (k, ([] : List String))),
       (keyList ids).map (fun k => (k, (0 : Int)))) := by
  have := initFold_go ids []
  simpa [keyList] using this

theorem effPairs_cons_pos {K : List String} {p : String × String}
    (h1 : p.1 ∈ K) (h2 : p.2 ∈ K) (pairs : List (String × String)) :
    effPairs K (p :: pairs) = p :: effPairs K pairs := by
  simp [effPairs, h1, h2]

theorem effPairs_cons_neg {K : List String} {p : String × String}
    (h : ¬(p.1 ∈ K ∧ p.2 ∈ K)) (pairs : List (String × String)) :
    effPairs K (p :: pairs) = effPairs K pairs := by
  by_cases h1 : p.1 ∈ K
  · have h2 : p.2 ∉ K := fun hc => h ⟨h1, hc⟩
    simp [effPairs, h1, h2]
  · simp [effPairs, h1]

theorem adjOf_cons (p : String × String) (E : List (String × String)) (u : String) :
    adjOf (p :: E) u = (if p.1 = u then [p.2] else []) ++ adjOf E u := by
  by_cases h : p.1 = u <;> simp [adjOf, h]

theorem indegOf_cons (p : String × String) (E : List (String × String)) (v : String) :
    indegOf (p :: E) v = (if p.2 = v then 1 else 0) + indegOf E v := by
  by_cases h : p.2 = v <;> simp [indegOf, h, Nat.add_comm]

theorem buildFold_go {K : List String} (hK : K.Nodup) :
    ∀ (pairs : List (String × String)) (G : String → List String) (D : String → Int),
      pairs.foldl buildStep (K.map (fun u => (u, G u)), K.map (fun v => (v, D v))) =
        (K.map (fun u => (u, G u ++ adjOf (effPairs K pairs) u)),
         K.map (fun v => (v, D v + (indegOf (effPairs K pairs) v : Int)))) := by
  intro pairs
  induction pairs with
  | nil =>
      intro G D
      simp [effPairs, adjOf, indegOf]
  | cons p rest ih =>
      intro G D
      rw [List.foldl_cons]
      by_cases hp : p.1 ∈ K ∧ p.2 ∈ K
      · obtain ⟨hp1, hp2⟩ := hp
        have hstep : buildStep (K.map (fun u => (u, G u)), K.map (fun v => (v, D v))) p =
            (K.map (fun u => (u, (fun w => if w = p.1 then G w ++ [p.2] else G w) u)),
             K.map (fun v => (v, (fun w => if w = p.2 then D w + 1 else D w) v))) := by
          unfold buildStep
          rw [dictGet_mapForm_mem G hp1, dictGet_mapForm_mem G hp2]
          simp only [Option.isSome_some, Bool.and_self, if_true, Option.getD_some]
          rw [dictGet_mapForm_mem D hp2]
          simp only [Option.getD_some]
          rw [dictSet_mapForm hK G hp1, dictSet_mapForm hK D hp2]
          simp only [Prod.mk.injEq]
          constructor
          · refine List.map_congr_left ?_
            intro w _
            by_cases hw : w = p.1 <;> simp [hw]
          · refine List.map_congr_left ?_
            intro w _
            by_cases hw : w = p.2 <;> simp [hw]
        rw [hstep, ih]
        rw [effPairs_cons_pos hp1 hp2]
        simp only [Prod.mk.injEq]
        constructor
        · refine List.map_congr_left ?_
          intro w _
          rw [adjOf_cons]
          by_cases hw : w = p.1
          · subst hw
            simp
          · have hw2 : ¬ p.1 = w := fun h => hw h.symm
            simp [hw, hw2]
        · refine List.map_congr_left ?_
          intro w _
          rw [indegOf_cons]
          by_cases hw : w = p.2
          · subst hw
            simp only [ite_true, eq_self_iff_true, if_pos]
            push_cast
            ring_nf
          · have hw2 : ¬ p.2 = w := fun h => hw h.symm
            simp [hw, hw2]
      · have hstep : buildStep (K.map (fun u => (u, G u)), K.map (fun v => (v, D v))) p =
            (K.map (fun u => (u, G u)), K.map (fun v => (v, D v))) := by
          unfold buildStep
          rw [dictGet_mapForm, dictGet_mapForm]
          by_cases h1 : p.1 ∈ K
          · have h2 : p.2 ∉ K := fun hc => hp ⟨h1, hc⟩
            simp [h1, h2]
          · simp [h1]
        rw [hstep, ih, effPairs_cons_neg hp]

theorem buildFold_eq (ids : List String) (pairs : List (String × String)) :
    pairs.foldl buildStep (ids.foldl initStep ([], [])) =
      ((keyList ids).map (fun u => (u, adjOf (effPairs (keyList ids) pairs) u)),
       (keyList ids).map (fun v => (v, (indegOf (effPairs (keyList ids) pairs) v : Int)))) := by
  rw [initFold_eq]
  have := buildFold_go (keyList_nodup ids) pairs (fun _ => []) (fun _ => 0)
  simpa using this

/-! ### The seed queue and the neighbour loop -/

theorem seedQueue_mapForm (K : List String) (f : String → Int) :
    seedQueue (K.map (fun v => (v, f v))) = K.filter (fun v => f v == 0) := by
  induction K with
  | nil => rfl
  | cons k rest ih =>
      by_cases hk : f k = 0
      · simp [seedQueue, List.filter_cons, hk] at ih ⊢
        exact ih
      · simp [seedQueue, List.filter_cons, hk] at ih ⊢
        exact ih

theorem mem_newqF (ns : List String) :
    ∀ (D : String → Int) (v : String),
      v ∈ newqF ns D ↔ (1 ≤ D v ∧ D v ≤ (ns.count v : Int)) := by
  induction ns with
  | nil =>
      intro D v
      simp only [newqF, List.not_mem_nil, List.count_nil, Nat.cast_zero, false_iff,
        not_and, not_le]
      intro h1
      omega
  | cons n rest ih =>
      intro D v
      by_cases hv : v = n
      · subst hv
        have hcount : ((v :: rest).count v : Int) = (rest.count v : Int) + 1 := by
          simp [List.count_cons]
        have hmem : (v ∈ if D v - 1 = 0 then [v] else []) ↔ D v - 1 = 0 := by
          by_cases hz : D v - 1 = 0 <;> simp [hz]
        simp only [newqF, List.mem_append, ih, hcount, hmem, ite_true,
          eq_self_iff_true, if_pos]
        omega
      · have hcount : ((n :: rest).count v : Int) = (rest.count v : Int) := by
          simp [List.count_cons, hv]
        have hmem : (v ∈ if D n - 1 = 0 then [n] else []) ↔ False := by
          by_cases hz : D n - 1 = 0 <;> simp [hz, hv]
        simp only [newqF, List.mem_append, ih, hcount, hmem, if_neg hv, false_or]

theorem newqF_nodup (ns : List String) : ∀ D : String → Int, (newqF ns D).Nodup := by
  induction ns with
  | nil => intro D; simp [newqF]
  | cons n rest ih =>
      intro D
      by_cases hz : D n - 1 = 0
      · simp only [newqF, if_pos hz, List.singleton_append, List.nodup_cons]
        refine ⟨?_, ih _⟩
        intro hmem
        rw [mem_newqF] at hmem
        simp only [ite_true, eq_self_iff_true, if_pos] at hmem
        omega
      · simp only [newqF, if_neg hz, List.nil_append]
        exact ih _

theorem mem_of_mem_newqF {ns : List String} {D : String → Int} {v : String}
    (h : v ∈ newqF ns D) : v ∈ ns := by
  rw [mem_newqF] at h
  have h2 : 0 < ns.count v := by
    by_contra hc
    push_neg at hc
    have : ns.count v = 0 := by omega
    rw [this] at h
    simp at h
    omega
  exact List.count_pos_iff.mp h2

theorem foldl_stepNb_eq {K : List String} (hK : K.Nodup) (ns : List String) :
    ∀ (D : String → Int) (q : List String), (∀ n ∈ ns, n ∈ K) →
      ns.foldl stepNb (K.map (fun v => (v, D v)), q) =
        (K.map (fun v => (v, D v - (ns.count v : Int))), q ++ newqF ns D) := by
  induction ns with
  | nil =>
      intro D q _
      simp [newqF]
  | cons n rest ih =>
      intro D q h
      have hn : n ∈ K := h n (by simp)
      rw [List.foldl_cons]
      have hfun : (fun v => (v, if v = n then D n - 1 else D v)) =
          (fun v => (v, if v = n then D v - 1 else D v)) := by
        funext v
        by_cases hv : v = n
        · subst hv
          simp
        · simp [hv]
      have hstep : stepNb (K.map (fun v => (v, D v)), q) n =
          (K.map (fun v => (v, if v = n then D v - 1 else D v)),
           q ++ if D n - 1 = 0 then [n] else []) := by
        unfold stepNb
        simp only [dictGet_mapForm_mem D hn]
        rw [dictSet_mapForm hK D hn, hfun]
        by_cases hz : D n - 1 = 0
        · simp [hz]
        · simp [hz]
      rw [hstep,
        ih (fun w => if w = n then D w - 1 else D w)
          (q ++ if D n - 1 = 0 then [n] else []) (fun x hx => h x (by simp [hx]))]
      simp only [newqF, Prod.mk.injEq]
      constructor
      · refine List.map_congr_left ?_
        intro w _
        by_cases hw : w = n
        · subst hw
          have hcount : ((w :: rest).count w : Int) = (rest.count w : Int) + 1 := by
            simp [List.count_cons]
          simp only [ite_true, eq_self_iff_true, if_pos, Prod.mk.injEq, true_and, hcount]
          omega
        · have hcount : ((n :: rest).count w : Int) = (rest.count w : Int) := by
            simp [List.count_cons, hw]
          simp only [if_neg hw, Prod.mk.injEq, true_and, hcount]
      · rw [List.append_assoc]

/-! ### Counting in-degrees -/

theorem length_filter_mono {α : Type} (p q : α → Bool) :
    ∀ l : List α, (∀ x ∈ l, q x = true → p x = true) →
      (l.filter q).length ≤ (l.filter p).length := by
  intro l
  induction l with
  | nil => intro _; simp
  | cons a rest ih =>
      intro h
      have hr := ih (fun x hx => h x (by simp [hx]))
      by_cases hq : q a = true
      · have hp := h a (by simp) hq
        simp only [List.filter_cons, hq, hp, if_true, List.length_cons]
        omega
      · by_cases hp : p a = true
        · simp only [List.filter_cons, hq, hp, if_true, if_false, Bool.false_eq_true,
            List.length_cons]
          omega
        · simp only [List.filter_cons, hq, hp, if_false, Bool.false_eq_true]
          exact hr

theorem length_filter_lt {α : Type} (p q : α → Bool) :
    ∀ (l : List α) (x0 : α), (∀ x ∈ l, q x = true → p x = true) → x0 ∈ l →
      p x0 = true → q x0 = false → (l.filter q).length < (l.filter p).length := by
  intro l
  induction l with
  | nil => intro x0 _ hx0 _ _; simp at hx0
  | cons a rest ih =>
      intro x0 h hx0 hpx hqx
      rcases List.mem_cons.mp hx0 with h1 | h1
      · subst h1
        have hmono := length_filter_mono p q rest (fun x hx => h x (by simp [hx]))
        have hqa : q x0 ≠ true := by rw [hqx]; simp
        simp only [List.filter_cons, hpx, hqa, if_true, if_false, Bool.false_eq_true,
          List.length_cons]
        omega
      · have hih := ih x0 (fun x hx => h x (by simp [hx])) h1 hpx hqx
        by_cases hq : q a = true
        · have hp := h a (by simp) hq
          simp only [List.filter_cons, hq, hp, if_true, List.length_cons]
          omega
        · by_cases hp : p a = true
          · simp only [List.filter_cons, hq, hp, if_true, if_false, Bool.false_eq_true,
              List.length_cons]
            omega
          · simp only [List.filter_cons, hq, hp, if_false, Bool.false_eq_true]
            exact hih

theorem inFrom_le_indegOf (E : List (String × String)) (done : List String) (v : String) :
    inFrom E done v ≤ indegOf E v := by
  apply length_filter_mono
  intro x _ hx
  simp only [Bool.and_eq_true] at hx
  exact hx.1

theorem exists_source_not_done {E : List (String × String)} {done : List String}
    {v : String} (h : inFrom E done v < indegOf E v) :
    ∃ p ∈ E, p.2 = v ∧ p.1 ∉ done := by
  by_contra hc
  push_neg at hc
  have heq : E.filter (fun p => p.2 == v && decide (p.1 ∈ done)) =
      E.filter (fun p => p.2 == v) := by
    apply List.filter_congr
    intro p hp
    by_cases hv : p.2 = v
    · have hd : p.1 ∈ done := hc p hp hv
      simp [hv, hd]
    · simp [hv]
  unfold inFrom indegOf at h
  rw [heq] at h
  omega

theorem inFrom_lt_of_witness {E : List (String × String)} {done : List String}
    {v : String} (p0 : String × String) (hp0 : p0 ∈ E) (hv : p0.2 = v)
    (hnd : p0.1 ∉ done) : inFrom E done v < indegOf E v := by
  apply length_filter_lt (fun p => p.2 == v) (fun p => p.2 == v && decide (p.1 ∈ done))
      E p0
  · intro x _ hx
    simp only [Bool.and_eq_true] at hx
    exact hx.1
  · exact hp0
  · simp [hv]
  · simp [hv, hnd]

theorem inFrom_cons (p : String × String) (E : List (String × String))
    (done : List String) (v : String) :
    inFrom (p :: E) done v =
      (if p.2 = v ∧ p.1 ∈ done then 1 else 0) + inFrom E done v := by
  by_cases hv : p.2 = v
  · by_cases hd : p.1 ∈ done
    · simp [inFrom, List.filter_cons, hv, hd, Nat.add_comm]
    · simp [inFrom, List.filter_cons, hv, hd]
  · simp [inFrom, List.filter_cons, hv]

theorem count_adjOf_cons (p : String × String) (E : List (String × String))
    (u v : String) :
    (adjOf (p :: E) u).count v =
      (if p.1 = u ∧ p.2 = v then 1 else 0) + (adjOf E u).count v := by
  rw [adjOf_cons]
  by_cases hu : p.1 = u
  · by_cases hv : p.2 = v
    · simp [hu, hv, List.count_cons, Nat.add_comm]
    · have hv2 : (v == p.2) = false := by
        simp only [beq_eq_false_iff_ne, ne_eq]
        exact fun h => hv h.symm
      simp [hu, hv, List.count_cons, hv2]
  · simp [hu]

theorem inFrom_append (E : List (String × String)) (done : List String) (u : String)
    (hu : u ∉ done) (v : String) :
    inFrom E (done ++ [u]) v = inFrom E done v + (adjOf E u).count v := by
  induction E with
  | nil => simp [inFrom, adjOf]
  | cons p rest ih =>
      rw [inFrom_cons, inFrom_cons, count_adjOf_cons, ih]
      by_cases hv : p.2 = v
      · by_cases hd : p.1 ∈ done
        · have hpu : ¬ p.1 = u := fun hx => hu (hx ▸ hd)
          have hd2 : p.1 ∈ done ++ [u] := by simp [hd]
          have h3 : ¬ (p.1 = u ∧ p.2 = v) := fun hx => hpu hx.1
          rw [if_pos ⟨hv, hd2⟩, if_pos ⟨hv, hd⟩, if_neg h3]
          omega
        · by_cases hpu : p.1 = u
          · have hd2 : p.1 ∈ done ++ [u] := by simp [hpu]
            have h2 : ¬ (p.2 = v ∧ p.1 ∈ done) := fun hx => hd hx.2
            rw [if_pos ⟨hv, hd2⟩, if_neg h2, if_pos ⟨hpu, hv⟩]
            omega
          · have hd2 : p.1 ∉ done ++ [u] := by simp [hd, hpu]
            have h1 : ¬ (p.2 = v ∧ p.1 ∈ done ++ [u]) := fun hx => hd2 hx.2
            have h2 : ¬ (p.2 = v ∧ p.1 ∈ done) := fun hx => hd hx.2
            have h3 : ¬ (p.1 = u ∧ p.2 = v) := fun hx => hpu hx.1
            simp only [h1, h2, h3, if_false]
            omega
      · have h1 : ¬ (p.2 = v ∧ p.1 ∈ done ++ [u]) := fun hx => hv hx.1
        have h2 : ¬ (p.2 = v ∧ p.1 ∈ done) := fun hx => hv hx.1
        have h3 : ¬ (p.1 = u ∧ p.2 = v) := fun hx => hv hx.2
        simp only [h1, h2, h3, if_false]
        omega

/-! ### The worklist loop -/

theorem kahnLoop_nil (g : Dict (List String)) (d : Dict Int) (v : Nat) :
    kahnLoop g d [] v = v := by
  rw [kahnLoop]

theorem kahnLoop_cons (g : Dict (List String)) (d : Dict Int) (n : String)
    (rest : List String) (v : Nat) :
    kahnLoop g d (n :: rest) v =
      kahnLoop g (((dictGet g n).getD []).foldl stepNb (d, rest)).1
        (((dictGet g n).getD []).foldl stepNb (d, rest)).2 (v + 1) := by
  rw [kahnLoop]

theorem mem_adjOf (E : List (String × String)) (u x : String) :
    x ∈ adjOf E u ↔ ∃ p ∈ E, p.1 = u ∧ p.2 = x := by
  constructor
  · intro h
    simp only [adjOf, List.mem_map, List.mem_filter] at h
    obtain ⟨p, ⟨hp, hpu⟩, hpx⟩ := h
    exact ⟨p, hp, beq_iff_eq.mp hpu, hpx⟩
  · rintro ⟨p, hp, hpu, hpx⟩
    simp only [adjOf, List.mem_map, List.mem_filter]
    exact ⟨p, ⟨hp, beq_iff_eq.mpr hpu⟩, hpx⟩

theorem nodup_subset_length_le {l K : List String} (hnd : l.Nodup)
    (hK : K.Nodup) (hsub : ∀ x ∈ l, x ∈ K) : l.length ≤ K.length := by
  have h1 : l.length = l.toFinset.card := (List.toFinset_card_of_nodup hnd).symm
  have h2 : K.length = K.toFinset.card := (List.toFinset_card_of_nodup hK).symm
  rw [h1, h2]
  apply Finset.card_le_card
  intro x hx
  rw [List.mem_toFinset] at hx ⊢
  exact hsub x hx

theorem degF_pos_source {E : List (String × String)} {done : List String} {v : String}
    (h : 0 < degF E done v) : ∃ p ∈ E, p.2 = v ∧ p.1 ∉ done := by
  apply exists_source_not_done
  unfold degF at h
  omega

theorem loop_run_base {K : List String} {E : List (String × String)}
    (hE : ∀ p ∈ E, p.1 ∈ K ∧ p.2 ∈ K) (done : List String)
    (hnd : done.Nodup) (hsub : ∀ x ∈ done, x ∈ K)
    (hpos : ∀ v ∈ K, v ∉ done → 0 < degF E done v) :
    done.Nodup ∧ (∀ x ∈ done, x ∈ K) ∧ (∀ x ∈ done, x ∈ done) ∧
      PSet E (K.filter (fun v => decide (v ∉ done))) ∧
      (∀ C, PSet E C → (∀ c ∈ C, c ∉ done) → ∀ c ∈ C, c ∉ done) := by
  refine ⟨hnd, hsub, fun x hx => hx, ?_, fun C _ hdisj c hc => hdisj c hc⟩
  intro v hv
  rw [List.mem_filter, decide_eq_true_eq] at hv
  obtain ⟨hvK, hvd⟩ := hv
  obtain ⟨p, hp, hpv, hpd⟩ := degF_pos_source (hpos v hvK hvd)
  refine ⟨p, hp, hpv, ?_⟩
  rw [List.mem_filter, decide_eq_true_eq]
  exact ⟨(hE p hp).1, hpd⟩

theorem loop_run {K : List String} {E : List (String × String)} (hK : K.Nodup)
    (hE : ∀ p ∈ E, p.1 ∈ K ∧ p.2 ∈ K) :
    ∀ (fuel : Nat) (done queue : List String) (visited : Nat),
      K.length ≤ done.length + fuel →
      (done ++ queue).Nodup →
      (∀ x ∈ done ++ queue, x ∈ K) →
      (∀ v ∈ K, v ∉ done → v ∉ queue → 0 < degF E done v) →
      (∀ v ∈ done ++ queue, degF E done v ≤ 0) →
      ∃ doneF : List String,
        kahnLoop (K.map (fun u => (u, adjOf E u)))
            (K.map (fun v => (v, degF E done v))) queue visited + done.length =
          visited + doneF.length ∧
        doneF.Nodup ∧
        (∀ x ∈ doneF, x ∈ K) ∧
        (∀ x ∈ done, x ∈ doneF) ∧
        PSet E (K.filter (fun v => decide (v ∉ doneF))) ∧
        (∀ C, PSet E C → (∀ c ∈ C, c ∉ done) → ∀ c ∈ C, c ∉ doneF) := by
  intro fuel
  induction fuel with
  | zero =>
      intro done queue visited hfuel hnd hsub hpos hnonpos
      cases queue with
      | nil =>
          refine ⟨done, ?_,
            loop_run_base hE done (by simpa using hnd) (fun x hx => hsub x (by simp [hx]))
              (fun v hv hvd => hpos v hv hvd (by simp))⟩
          rw [kahnLoop_nil]
      | cons u rest =>
          exfalso
          have hlen : (done ++ u :: rest).length ≤ K.length :=
            nodup_subset_length_le hnd hK hsub
          simp only [List.length_append, List.length_cons] at hlen
          omega
  | succ f ih =>
      intro done queue visited hfuel hnd hsub hpos hnonpos
      cases queue with
      | nil =>
          refine ⟨done, ?_,
            loop_run_base hE done (by simpa using hnd) (fun x hx => hsub x (by simp [hx]))
              (fun v hv hvd => hpos v hv hvd (by simp))⟩
          rw [kahnLoop_nil]
      | cons u rest =>
          have hu : u ∈ K := hsub u (by simp)
          have hun : u ∉ done := by
            have := (List.nodup_append.mp hnd).2.2
            intro hcon
            exact this hcon (by simp)
          have hns : ∀ n ∈ adjOf E u, n ∈ K := by
            intro n hn
            obtain ⟨p, hp, _, hpx⟩ := (mem_adjOf E u n).mp hn
            exact hpx ▸ (hE p hp).2
          have hdeg : ∀ v, degF E (done ++ [u]) v =
              degF E done v - ((adjOf E u).count v : Int) := by
            intro v
            unfold degF
            rw [inFrom_append E done u hun v]
            push_cast
            ring_nf
          -- one unfolding of the loop
          have hloopstep :
              kahnLoop (K.map (fun u2 => (u2, adjOf E u2)))
                  (K.map (fun v => (v, degF E done v))) (u :: rest) visited =
                kahnLoop (K.map (fun u2 => (u2, adjOf E u2)))
                  (K.map (fun v => (v, degF E (done ++ [u]) v)))
                  (rest ++ newqF (adjOf E u) (degF E done)) (visited + 1) := by
            rw [kahnLoop_cons]
            rw [dictGet_mapForm_mem (adjOf E) hu]
            simp only [Option.getD_some]
            rw [foldl_stepNb_eq hK (adjOf E u) (degF E done) rest hns]
            have hm : (K.map (fun v => (v, degF E done v - ((adjOf E u).count v : Int)))) =
                K.map (fun v => (v, degF E (done ++ [u]) v)) := by
              refine List.map_congr_left ?_
              intro v _
              rw [hdeg v]
            rw [hm]
          -- invariants for the tail state
          have hnodup2 : ((done ++ [u]) ++ (rest ++ newqF (adjOf E u) (degF E done))).Nodup := by
            have hassoc : (done ++ [u]) ++ (rest ++ newqF (adjOf E u) (degF E done)) =
                (done ++ u :: rest) ++ newqF (adjOf E u) (degF E done) := by
              simp
            rw [hassoc, List.nodup_append]
            refine ⟨hnd, newqF_nodup _ _, ?_⟩
            intro x hx hx2
            have h1 : degF E done x ≤ 0 := hnonpos x hx
            have h2 := (mem_newqF _ _ _).mp hx2
            omega
          have hsub2 : ∀ x ∈ (done ++ [u]) ++ (rest ++ newqF (adjOf E u) (degF E done)),
              x ∈ K := by
            intro x hx
            simp only [List.mem_append, List.mem_singleton] at hx
            rcases hx with (hx | hx) | (hx | hx)
            · exact hsub x (by simp [hx])
            · exact hx ▸ hu
            · exact hsub x (by simp [hx])
            · exact hns x (mem_of_mem_newqF hx)
          have hpos2 : ∀ v ∈ K, v ∉ done ++ [u] →
              v ∉ rest ++ newqF (adjOf E u) (degF E done) → 0 < degF E (done ++ [u]) v := by
            intro v hv hvd hvq
            simp only [List.mem_append, List.mem_singleton, not_or] at hvd hvq
            have hold : 0 < degF E done v :=
              hpos v hv hvd.1 (by simp [hvd.2, hvq.1])
            rw [hdeg v]
            by_contra hc
            push_neg at hc
            have hmem : v ∈ newqF (adjOf E u) (degF E done) := by
              rw [mem_newqF]
              omega
            exact hvq.2 hmem
          have hnonpos2 : ∀ v ∈ (done ++ [u]) ++ (rest ++ newqF (adjOf E u) (degF E done)),
              degF E (done ++ [u]) v ≤ 0 := by
            intro v hv
            rw [hdeg v]
            simp only [List.mem_append, List.mem_singleton] at hv
            rcases hv with (hv | hv) | (hv | hv)
            · have := hnonpos v (by simp [hv])
              have hcnt : (0 : Int) ≤ ((adjOf E u).count v : Int) := by positivity
              omega
            · have := hnonpos v (by simp [hv])
              have hcnt : (0 : Int) ≤ ((adjOf E u).count v : Int) := by positivity
              omega
            · have := hnonpos v (by simp [hv])
              have hcnt : (0 : Int) ≤ ((adjOf E u).count v : Int) := by positivity
              omega
            · have := (mem_newqF _ _ _).mp hv
              omega
          have hfuel2 : K.length ≤ (done ++ [u]).length + f := by
            simp only [List.length_append, List.length_cons, List.length_nil]
            omega
          obtain ⟨doneF, hcount, hndF, hsubF, hgrow, hP, hC⟩ :=
            ih (done ++ [u]) (rest ++ newqF (adjOf E u) (degF E done)) (visited + 1)
              hfuel2 hnodup2 hsub2 hpos2 hnonpos2
          refine ⟨doneF, ?_, hndF, hsubF, ?_, hP, ?_⟩
          · rw [hloopstep]
            simp only [List.length_append, List.length_cons, List.length_nil] at hcount
            omega
          · intro x hx
            exact hgrow x (by simp [hx])
          · intro C hCP hCdisj
            have hCu : u ∉ C := by
              intro hc
              obtain ⟨p, hp, hpv, hpC⟩ := hCP u hc
              have hpnd : p.1 ∉ done := fun hx => hCdisj p.1 hpC hx
              have hlt := inFrom_lt_of_witness p hp hpv hpnd
              have := hnonpos u (by simp)
              unfold degF at this
              omega
            refine hC C hCP ?_
            intro c hc
            simp only [List.mem_append, List.mem_singleton, not_or]
            exact ⟨hCdisj c hc, fun hx => hCu (hx ▸ hc)⟩

/-! ### The visited count of the whole algorithm -/

theorem inFrom_nil (E : List (String × String)) (v : String) : inFrom E [] v = 0 := by
  simp [inFrom]

theorem degF_nil (E : List (String × String)) (v : String) :
    degF E [] v = (indegOf E v : Int) := by
  simp [degF, inFrom_nil]

theorem effPairs_mem {K : List String} {pairs : List (String × String)} :
    ∀ p ∈ effPairs K pairs, p.1 ∈ K ∧ p.2 ∈ K := by
  intro p hp
  simp only [effPairs, List.mem_filter, Bool.and_eq_true, decide_eq_true_eq] at hp
  exact hp.2

theorem effPairs_of_closed {K : List String} {pairs : List (String × String)}
    (h : ∀ p ∈ pairs, p.1 ∈ K ∧ p.2 ∈ K) : effPairs K pairs = pairs := by
  unfold effPairs
  rw [List.filter_eq_self]
  intro p hp
  simp only [Bool.and_eq_true, decide_eq_true_eq]
  exact h p hp

theorem nodup_same_mem_length_eq {l1 l2 : List String} (h1 : l1.Nodup) (h2 : l2.Nodup)
    (h : ∀ x, x ∈ l1 ↔ x ∈ l2) : l1.length = l2.length := by
  rw [← List.toFinset_card_of_nodup h1, ← List.toFinset_card_of_nodup h2]
  congr 1
  ext x
  simp only [List.mem_toFinset]
  exact h x

theorem kahnCount_spec (ids : List String) (pairs : List (String × String)) :
    ∃ R : List String, R.Nodup ∧
      PSet (effPairs (keyList ids) pairs) R ∧
      (∀ C, PSet (effPairs (keyList ids) pairs) C → ∀ c ∈ C, c ∈ R) ∧
      kahnCount ids pairs + R.length = (keyList ids).length := by
  have hK : (keyList ids).Nodup := keyList_nodup ids
  have hE : ∀ p ∈ effPairs (keyList ids) pairs, p.1 ∈ keyList ids ∧ p.2 ∈ keyList ids :=
    effPairs_mem
  have hcore : kahnCount ids pairs =
      kahnLoop ((keyList ids).map (fun u => (u, adjOf (effPairs (keyList ids) pairs) u)))
        ((keyList ids).map
          (fun v => (v, degF (effPairs (keyList ids) pairs) [] v)))
        ((keyList ids).filter
          (fun v => ((indegOf (effPairs (keyList ids) pairs) v : Int)) == 0)) 0 := by
    unfold kahnCount
    simp only []
    rw [buildFold_eq]
    simp only [seedQueue_mapForm]
    have hm : ((keyList ids).map
        (fun v => (v, (indegOf (effPairs (keyList ids) pairs) v : Int)))) =
        (keyList ids).map (fun v => (v, degF (effPairs (keyList ids) pairs) [] v)) := by
      refine List.map_congr_left ?_
      intro v _
      rw [degF_nil]
    rw [hm]
  obtain ⟨doneF, hcount, hndF, hsubF, _, hP, hC⟩ :=
    loop_run hK hE (keyList ids).length []
      ((keyList ids).filter
        (fun v => ((indegOf (effPairs (keyList ids) pairs) v : Int)) == 0)) 0
      (by simp)
      (by
        simp only [List.nil_append]
        exact hK.filter _)
      (by
        intro x hx
        simp only [List.nil_append] at hx
        exact List.mem_of_mem_filter hx)
      (by
        intro v hv _ hvq
        rw [degF_nil]
        have hne : ¬ ((indegOf (effPairs (keyList ids) pairs) v : Int) == 0) = true := by
          intro hc
          exact hvq (List.mem_filter.mpr ⟨hv, hc⟩)
        simp only [beq_iff_eq] at hne
        have : (0 : Int) ≤ (indegOf (effPairs (keyList ids) pairs) v : Int) := by positivity
        omega)
      (by
        intro v hv
        simp only [List.nil_append] at hv
        have := (List.mem_filter.mp hv).2
        simp only [beq_iff_eq] at this
        rw [degF_nil, this])
  rw [← hcore] at hcount
  simp only [List.length_nil, Nat.add_zero, Nat.zero_add] at hcount
  refine ⟨(keyList ids).filter (fun v => decide (v ∉ doneF)), hK.filter _, hP, ?_, ?_⟩
  · intro C hCP c hc
    rw [List.mem_filter, decide_eq_true_eq]
    obtain ⟨p, hp, hpv, _⟩ := hCP c hc
    refine ⟨hpv ▸ (hE p hp).2, hC C hCP (by intro c2 _; simp) c hc⟩
  · have hsplit := List.length_eq_length_filter_add
      (l := keyList ids) (fun v => decide (v ∉ doneF))
    have hcompl : ((keyList ids).filter (fun v => !(decide (v ∉ doneF)))).length =
        doneF.length := by
      apply nodup_same_mem_length_eq (hK.filter _) hndF
      intro x
      rw [List.mem_filter]
      simp only [Bool.not_eq_eq_eq_not, Bool.not_true, decide_eq_false_iff_not,
        Decidable.not_not]
      constructor
      · intro hx
        exact hx.2
      · intro hx
        exact ⟨hsubF x hx, hx⟩
    omega

theorem is_dag_eq_count {π δ : Type} (nodes : List (Node π δ)) (edges : List Edge)
    (hn : nodes ≠ []) (he : edges ≠ []) :
    is_dag nodes edges =
      (kahnCount (nodeIds nodes) (edgePairs edges) == nodes.length) := by
  rw [is_dag_eq_core]
  have h1 : ¬ nodes.length = 0 := by
    intro hc
    exact hn (List.length_eq_zero.mp hc)
  have h2 : ¬ edges.length = 0 := by
    intro hc
    exact he (List.length_eq_zero.mp hc)
  rw [if_neg h1, if_neg h2]

/-- Claim C10: the worklist loop of `is_dag` terminates (its Lean
counterpart is total by a decreasing measure), and the visited count —
one increment per loop iteration — is at most the number of distinct
node identifiers, which in turn is at most the number of submitted
nodes. -/
theorem claim_C10_termination_bound {π δ : Type} (nodes : List (Node π δ))
    (edges : List Edge) :
    kahnCount (nodeIds nodes) (edgePairs edges) ≤ (keyList (nodeIds nodes)).length ∧
      (keyList (nodeIds nodes)).length ≤ nodes.length := by
  obtain ⟨R, _, _, _, hcount⟩ := kahnCount_spec (nodeIds nodes) (edgePairs edges)
  constructor
  · omega
  · have := keyList_length_le (nodeIds nodes)
    simpa [nodeIds] using this

/-- Claim C8: with at least two nodes sharing an identifier and a
non-empty edge list (all endpoints present), `is_dag` returns `false`
regardless of the shape of the graph: the visited count is bounded by
the number of distinct identifiers, which is strictly less than the
node-list length it is compared against. -/
theorem claim_C8_duplicate_ids {π δ : Type} (nodes : List (Node π δ))
    (edges : List Edge) (hdup : ¬ (nodeIds nodes).Nodup) (he : edges ≠ [])
    (hclosed : ∀ e ∈ edges, e.source ∈ nodeIds nodes ∧ e.target ∈ nodeIds nodes) :
    is_dag nodes edges = false := by
  have hn : nodes ≠ [] := by
    intro hc
    subst hc
    exact hdup (by simp [nodeIds])
  rw [is_dag_eq_count nodes edges hn he]
  have hlt : (keyList (nodeIds nodes)).length < nodes.length := by
    have := keyList_length_lt hdup
    simpa [nodeIds] using this
  obtain ⟨R, _, _, _, hcount⟩ := kahnCount_spec (nodeIds nodes) (edgePairs edges)
  have hne : kahnCount (nodeIds nodes) (edgePairs edges) ≠ nodes.length := by omega
  simpa using hne

/-- Witness for C8: duplicate node `"A"`, acyclic edge `A → B`, verdict
`false` even though the underlying graph has no cycle. -/
theorem claim_C8_witness :
    (¬ (nodeIds [({ id := "A", type := "t", position := 0, data := 0 } : Node Nat Nat),
          { id := "A", type := "t", position := 0, data := 0 },
          { id := "B", type := "t", position := 0, data := 0 }]).Nodup) ∧
    ([({ id := "e1", source := "A", target := "B" } : Edge)] ≠ []) ∧
    is_dag [({ id := "A", type := "t", position := 0, data := 0 } : Node Nat Nat),
        { id := "A", type := "t", position := 0, data := 0 },
        { id := "B", type := "t", position := 0, data := 0 }]
      [{ id := "e1", source := "A", target := "B" }] = false :=
  ⟨by decide, by decide,
    claim_C8_duplicate_ids _ _ (by decide) (by decide) (by decide)⟩

/-- Claim C4: permuting the edge list never changes the `is_dag`
verdict. -/
theorem claim_C4_edge_permutation {π δ : Type} (nodes : List (Node π δ))
    (edges1 edges2 : List Edge) (h : edges1.Perm edges2) :
    is_dag nodes edges1 = is_dag nodes edges2 := by
  by_cases hn : nodes = []
  · subst hn
    simp [is_dag]
  · by_cases he1 : edges1 = []
    · subst he1
      have he2 : edges2 = [] := h.symm.eq_nil
      subst he2
      rfl
    · have he2 : edges2 ≠ [] := by
        intro hc
        subst hc
        exact he1 h.eq_nil
      rw [is_dag_eq_count nodes edges1 hn he1, is_dag_eq_count nodes edges2 hn he2]
      have heff : (effPairs (keyList (nodeIds nodes)) (edgePairs edges1)).Perm
          (effPairs (keyList (nodeIds nodes)) (edgePairs edges2)) :=
        (h.map _).filter _
      have hPSet : ∀ C, PSet (effPairs (keyList (nodeIds nodes)) (edgePairs edges1)) C ↔
          PSet (effPairs (keyList (nodeIds nodes)) (edgePairs edges2)) C := by
        intro C
        unfold PSet
        constructor
        · intro hC v hv
          obtain ⟨p, hp, h1, h2⟩ := hC v hv
          exact ⟨p, heff.mem_iff.mp hp, h1, h2⟩
        · intro hC v hv
          obtain ⟨p, hp, h1, h2⟩ := hC v hv
          exact ⟨p, heff.mem_iff.mpr hp, h1, h2⟩
      obtain ⟨R1, hnd1, hP1, hmax1, hc1⟩ :=
        kahnCount_spec (nodeIds nodes) (edgePairs edges1)
      obtain ⟨R2, hnd2, hP2, hmax2, hc2⟩ :=
        kahnCount_spec (nodeIds nodes) (edgePairs edges2)
      have h12 : ∀ c ∈ R1, c ∈ R2 := hmax2 R1 ((hPSet R1).mp hP1)
      have h21 : ∀ c ∈ R2, c ∈ R1 := hmax1 R2 ((hPSet R2).mpr hP2)
      have hlen : R1.length = R2.length :=
        nodup_same_mem_length_eq hnd1 hnd2
          (fun x => ⟨fun hx => h12 x hx, fun hx => h21 x hx⟩)
      have hcounts : kahnCount (nodeIds nodes) (edgePairs edges1) =
          kahnCount (nodeIds nodes) (edgePairs edges2) := by omega
      rw [hcounts]

/-- Witness for C4: swapping the two edges of a two-edge request leaves
the verdict unchanged. -/
theorem claim_C4_witness :
    is_dag [({ id := "A", type := "t", position := 0, data := 0 } : Node Nat Nat),
        { id := "B", type := "t", position := 0, data := 0 }]
      [({ id := "e1", source := "A", target := "B" } : Edge),
       { id := "e2", source := "B", target := "A" }] =
    is_dag [({ id := "A", type := "t", position := 0, data := 0 } : Node Nat Nat),
        { id := "B", type := "t", position := 0, data := 0 }]
      [({ id := "e2", source := "B", target := "A" } : Edge),
       { id := "e1", source := "A", target := "B" }] :=
  claim_C4_edge_permutation _ _ _
    (List.Perm.swap ({ id := "e2", source := "B", target := "A" } : Edge)
      ({ id := "e1", source := "A", target := "B" } : Edge) [])

/-! ### Self-sustaining vertex lists versus directed cycles -/

theorem transGen_congr {r s : String → String → Prop} (h : ∀ a b, r a b ↔ s a b)
    {a b : String} : Relation.TransGen r a b ↔ Relation.TransGen s a b :=
  ⟨Relation.TransGen.mono (fun x y hxy => (h x y).mp hxy),
   Relation.TransGen.mono (fun x y hxy => (h x y).mpr hxy)⟩

theorem hasEdge_iff_pairRel (edges : List Edge) (u v : String) :
    hasEdge edges u v ↔ pairRel (edgePairs edges) u v := by
  unfold hasEdge pairRel edgePairs
  constructor
  · rintro ⟨e, he, h1, h2⟩
    exact ⟨(e.source, e.target), List.mem_map.mpr ⟨e, he, rfl⟩, h1, h2⟩
  · rintro ⟨p, hp, h1, h2⟩
    obtain ⟨e, he, heq⟩ := List.mem_map.mp hp
    refine ⟨e, he, ?_, ?_⟩
    · rw [← h1, ← heq]
    · rw [← h2, ← heq]

theorem PSet_has_cycle {E : List (String × String)} {C : List String} (hC : PSet E C)
    {c0 : String} (hc0 : c0 ∈ C) :
    ∃ w, Relation.TransGen (pairRel E) w w := by
  classical
  have hpred : ∀ v, ∃ u, v ∈ C → (u ∈ C ∧ pairRel E u v) := by
    intro v
    by_cases hv : v ∈ C
    · obtain ⟨p, hp, hpv, hpC⟩ := hC v hv
      exact ⟨p.1, fun _ => ⟨hpC, p, hp, rfl, hpv⟩⟩
    · exact ⟨"", fun h => absurd h hv⟩
  choose f hf using hpred
  have hiter : ∀ k v, v ∈ C → f^[k + 1] v ∈ C ∧
      Relation.TransGen (pairRel E) (f^[k + 1] v) v := by
    intro k
    induction k with
    | zero =>
        intro v hv
        simp only [Nat.zero_add, Function.iterate_one]
        exact ⟨(hf v hv).1, Relation.TransGen.single (hf v hv).2⟩
    | succ n ihk =>
        intro v hv
        obtain ⟨h1, h2⟩ := ihk v hv
        rw [Function.iterate_succ_apply']
        exact ⟨(hf _ h1).1, Relation.TransGen.head (hf _ h1).2 h2⟩
  have key : ∀ i j : Nat, i < j → f^[i + 1] c0 = f^[j + 1] c0 →
      ∃ w, Relation.TransGen (pairRel E) w w := by
    intro i j hij heq
    have hw : f^[i + 1] c0 ∈ C := (hiter i c0 hc0).1
    have hm : j + 1 = (j - i) + (i + 1) := by omega
    have hsplit : f^[j + 1] c0 = f^[j - i] (f^[i + 1] c0) := by
      rw [hm, Function.iterate_add_apply]
    obtain ⟨m, hm2⟩ : ∃ m, j - i = m + 1 := ⟨j - i - 1, by omega⟩
    have hTG := (hiter m (f^[i + 1] c0) hw).2
    rw [← hm2, ← hsplit, ← heq] at hTG
    exact ⟨f^[i + 1] c0, hTG⟩
  have hmaps : ∀ i ∈ Finset.range (C.toFinset.card + 1),
      f^[i + 1] c0 ∈ C.toFinset := by
    intro i _
    rw [List.mem_toFinset]
    exact (hiter i c0 hc0).1
  obtain ⟨i, hi, j, hj, hne, heq⟩ :=
    Finset.exists_ne_map_eq_of_card_lt_of_maps_to (by simp) hmaps
  rcases Nat.lt_or_ge i j with hij | hij
  · exact key i j hij heq
  · have hij2 : j < i := by omega
    exact key j i hij2 heq.symm

theorem cycle_has_PSet {E : List (String × String)} {v0 : String}
    (h : Relation.TransGen (pairRel E) v0 v0) :
    ∃ C : List String, C ≠ [] ∧ PSet E C := by
  classical
  have hv0mem : v0 ∈ E.map Prod.snd := by
    obtain ⟨b, _, hrel⟩ := Relation.TransGen.tail'_iff.mp h
    obtain ⟨p, hp, _, hp2⟩ := hrel
    rw [List.mem_map]
    exact ⟨p, hp, hp2⟩
  refine ⟨(E.map Prod.snd).filter
      (fun u => decide (Relation.TransGen (pairRel E) v0 u ∧
        Relation.TransGen (pairRel E) u v0)), ?_, ?_⟩
  · intro hc
    have hv0C : v0 ∈ (E.map Prod.snd).filter
        (fun u => decide (Relation.TransGen (pairRel E) v0 u ∧
          Relation.TransGen (pairRel E) u v0)) := by
      rw [List.mem_filter, decide_eq_true_eq]
      exact ⟨hv0mem, h, h⟩
    rw [hc] at hv0C
    simp at hv0C
  · intro u hu
    rw [List.mem_filter, decide_eq_true_eq] at hu
    obtain ⟨humem, hvu, huv⟩ := hu
    obtain ⟨w, hw, hrel⟩ := Relation.TransGen.tail'_iff.mp hvu
    obtain ⟨p, hp, hp1, hp2⟩ := hrel
    refine ⟨p, hp, hp2, ?_⟩
    rw [List.mem_filter, decide_eq_true_eq]
    have hwv0 : Relation.TransGen (pairRel E) w v0 :=
      Relation.TransGen.head ⟨p, hp, hp1, hp2⟩ huv
    rcases Relation.reflTransGen_iff_eq_or_transGen.mp hw with heq | hTG
    · rw [hp1, heq]
      exact ⟨hv0mem, h, h⟩
    · have hwmem : w ∈ E.map Prod.snd := by
        obtain ⟨b2, _, hrel2⟩ := Relation.TransGen.tail'_iff.mp hTG
        obtain ⟨q, hq, _, hq2⟩ := hrel2
        rw [List.mem_map]
        exact ⟨q, hq, hq2⟩
      rw [hp1]
      exact ⟨hwmem, hTG, hwv0⟩

/-- Claim C1: for a request with pairwise-distinct node identifiers
whose edges all reference existing nodes, `is_dag` returns `true` if and
only if the directed graph has no directed cycle (no vertex reaches
itself through a non-empty chain of edges). -/
theorem claim_C1_kahn_iff_acyclic {π δ : Type} (nodes : List (Node π δ))
    (edges : List Edge) (hnd : (nodeIds nodes).Nodup)
    (hclosed : ∀ e ∈ edges, e.source ∈ nodeIds nodes ∧ e.target ∈ nodeIds nodes) :
    is_dag nodes edges = true ↔
      ∀ v, ¬ Relation.TransGen (hasEdge edges) v v := by
  by_cases he : edges = []
  · subst he
    have hdag : is_dag nodes ([] : List Edge) = true := by
      by_cases h : nodes.length = 0 <;> simp [is_dag, h]
    rw [hdag]
    constructor
    · intro _ v hv
      obtain ⟨b, hab, _⟩ := Relation.TransGen.head'_iff.mp hv
      obtain ⟨e2, he2, _⟩ := hab
      exact absurd he2 (List.not_mem_nil e2)
    · intro _
      rfl
  · have hn : nodes ≠ [] := by
      intro hc
      subst hc
      obtain ⟨e, heM⟩ := List.exists_mem_of_ne_nil edges he
      have := (hclosed e heM).1
      simp [nodeIds] at this
    have hKeq : keyList (nodeIds nodes) = nodeIds nodes := keyList_of_nodup hnd
    have hclosedP : ∀ p ∈ edgePairs edges,
        p.1 ∈ keyList (nodeIds nodes) ∧ p.2 ∈ keyList (nodeIds nodes) := by
      rw [hKeq]
      intro p hp
      obtain ⟨e, heM, heq⟩ := List.mem_map.mp hp
      rw [← heq]
      exact hclosed e heM
    have hEeq : effPairs (keyList (nodeIds nodes)) (edgePairs edges) = edgePairs edges :=
      effPairs_of_closed hclosedP
    have hrel : ∀ a b, hasEdge edges a b ↔ pairRel (edgePairs edges) a b :=
      hasEdge_iff_pairRel edges
    have hlen : (keyList (nodeIds nodes)).length = nodes.length := by
      rw [hKeq]
      simp [nodeIds]
    rw [is_dag_eq_count nodes edges hn he]
    obtain ⟨R, hndR, hPR, hmaxR, hcR⟩ := kahnCount_spec (nodeIds nodes) (edgePairs edges)
    rw [hEeq] at hPR hmaxR
    constructor
    · intro hbeq v hv
      rw [beq_iff_eq] at hbeq
      have hRnil : R = [] := by
        apply List.length_eq_zero.mp
        omega
      have hv2 : Relation.TransGen (pairRel (edgePairs edges)) v v :=
        (transGen_congr hrel).mp hv
      obtain ⟨C, hCne, hCP⟩ := cycle_has_PSet hv2
      obtain ⟨c, hc⟩ := List.exists_mem_of_ne_nil C hCne
      have hcR2 := hmaxR C hCP c hc
      rw [hRnil] at hcR2
      simp at hcR2
    · intro hacyc
      have hRnil : R = [] := by
        by_contra hc
        obtain ⟨c, hcm⟩ := List.exists_mem_of_ne_nil R hc
        obtain ⟨w, hw⟩ := PSet_has_cycle hPR hcm
        exact hacyc w ((transGen_congr hrel).mpr hw)
      rw [hRnil] at hcR
      simp only [List.length_nil, Nat.add_zero] at hcR
      rw [beq_iff_eq]
      omega

/-- Witness for C1 at a concrete acyclic two-node chain with distinct
identifiers and valid references. -/
theorem claim_C1_witness :
    (nodeIds [({ id := "A", type := "t", position := 0, data := 0 } : Node Nat Nat),
        { id := "B", type := "t", position := 0, data := 0 }]).Nodup ∧
    (∀ e ∈ [({ id := "e1", source := "A", target := "B" } : Edge)],
        e.source ∈ nodeIds
            [({ id := "A", type := "t", position := 0, data := 0 } : Node Nat Nat),
             { id := "B", type := "t", position := 0, data := 0 }] ∧
        e.target ∈ nodeIds
            [({ id := "A", type := "t", position := 0, data := 0 } : Node Nat Nat),
             { id := "B", type := "t", position := 0, data := 0 }]) ∧
    (is_dag [({ id := "A", type := "t", position := 0, data := 0 } : Node Nat Nat),
          { id := "B", type := "t", position := 0, data := 0 }]
        [({ id := "e1", source := "A", target := "B" } : Edge)] = true ↔
      ∀ v, ¬ Relation.TransGen
        (hasEdge [({ id := "e1", source := "A", target := "B" } : Edge)]) v v) :=
  ⟨by decide, by decide, claim_C1_kahn_iff_acyclic _ _ (by decide) (by decide)⟩

end Pipeline
